import Mathlib

/-!
Verification development for the URL inference engine of the git-backups
repository (src/git_backups/utils.py and the target-resolution step of
src/git_backups/main.py).

Strings are modelled as lists of characters (`Str := List Char`), Python
exceptions as an explicit error type threaded through `Except`.  Each
definition below is a direct translation of the corresponding Python
function; the reference sources are quoted in the doc comments.

The Python standard-library functions the code calls are modelled after
CPython 3.11 (urllib.parse.urlparse, posixpath.split / basename, str.strip,
re.sub / re.fullmatch on the three concrete patterns used by the code):

* urlsplit: lstrip of WHATWG C0-control-or-space characters, removal of
  the unsafe bytes TAB / CR / LF, scheme detection (first colon, first
  character an ASCII letter, all preceding characters in scheme_chars),
  netloc extraction after a leading "//" up to the first of "/?#",
  ValueError when the netloc contains "[" without "]" or vice versa,
  then fragment and query removal.  Two further urlsplit validations are
  not modelled, both of which concern only the netloc: validation of a
  fully bracketed host (the netloc contains both "[" and "]"), and the
  NFKC check of _checknetloc, which can raise ValueError only when the
  netloc contains non-ASCII characters (its first line returns when
  netloc.isascii()).  The model is therefore exact for inputs whose
  netloc is bracket-free ASCII — in particular for every input with no
  netloc at all (scp-style and bare paths) — and every theorem below
  that quantifies over an authority restricts it to bracket-free ASCII
  characters.
* urlparse: on top of urlsplit, parameters (";" suffix of the last path
  segment) are split off when the scheme is in uses_params.
* re.sub(r"(.git)?/?$", "", s): the pattern is anchored at the end ("$"
  matches at the end of the string and also just before a trailing
  newline; "." does not match a newline), so the substitution removes at
  most one nonempty match, namely the longest of: any non-newline
  character followed by "git/", any non-newline character followed by
  "git", or a lone "/", ending where "$" matches.  `subGitSlash` below
  implements exactly that; the enumeration of cases was checked
  exhaustively against CPython on all the edge shapes (trailing
  newlines, "Xgit" suffixes, repeated slashes, ...).
-/

namespace GitBackups

abbrev Str := List Char

/-- Python exceptions that the modelled code can raise. -/
inductive PyExc
  | valueError
  | typeError
deriving DecidableEq

instance instDecEqExcept {ε α : Type} [DecidableEq ε] [DecidableEq α] :
    DecidableEq (Except ε α)
  | .error e, .error f =>
      if h : e = f then .isTrue (by rw [h]) else .isFalse (fun hc => h (by injection hc))
  | .error _, .ok _ => .isFalse (fun hc => Except.noConfusion hc)
  | .ok _, .error _ => .isFalse (fun hc => Except.noConfusion hc)
  | .ok a, .ok b =>
      if h : a = b then .isTrue (by rw [h]) else .isFalse (fun hc => h (by injection hc))

/-- Does the string end with some character followed by "git"
(the shape matched by the regex fragment ".git" at the end)? -/
def endsGitB (s : Str) : Bool :=
  match s.reverse with
  | 't' :: 'i' :: 'g' :: _ :: _ => true
  | _ => false

/-- Core of re.sub(r"(.git)?/?$", "", s) for a string with no trailing
newline: remove the longest end-anchored match, which is either
X-"git"-"/" (five characters, X not a newline, since "." does not match
newlines), X-"git", a lone "/", or nothing.  When the string ends with
a newline-"git"-"/" suffix the group cannot match, and only the slash
is removed. -/
def stripCore (t : Str) : Str :=
  match t.reverse with
  | '/' :: 't' :: 'i' :: 'g' :: c :: rs =>
      if c = '\n' then ('t' :: 'i' :: 'g' :: c :: rs).reverse else rs.reverse
  | 't' :: 'i' :: 'g' :: c :: rs =>
      if c = '\n' then t else rs.reverse
  | '/' :: rs => rs.reverse
  | _ => t

/-- Model of re.sub(r"(.git)?/?$", "", s).  Since "$" also matches just
before a trailing newline (and no pattern character can consume that
newline), a trailing newline is preserved and the strip applies to the
part before it. -/
def subGitSlash (s : Str) : Str :=
  match s.reverse with
  | '\n' :: rs => stripCore rs.reverse ++ ['\n']
  | _ => stripCore s

/-- Model of s.split(":")[-1]: the suffix after the last colon
(the whole string when there is no colon). -/
def afterLastColon (s : Str) : Str :=
  (s.reverse.takeWhile (fun c => c != ':')).reverse

/-- Translation of utils.clean_name:
    return re.sub(r"(.git)?/?\x24", "", s.split(":")[-1]) -/
def clean_name (s : Str) : Str :=
  subGitSlash (afterLastColon s)

/-- ASCII fragment of the regex class \w (letter, digit or underscore).
Python compiles \w with re.UNICODE, so it additionally accepts non-ASCII
word characters (unicode letters and digits) that this model rejects;
validate_group_name below is therefore the group grammar restricted to
ASCII names, and theorems that hypothesize it range over that fragment
(on which the model and Python agree; every ASCII word character is also
a Python word character, so such names are accepted by the program). -/
def isWordChar (c : Char) : Bool :=
  c.isAlphanum || c = '_'

/-- Characters allowed after the first one by r"\w[\w\-.() ]*". -/
def groupRestChar (c : Char) : Bool :=
  isWordChar c || c = '-' || c = '.' || c = '(' || c = ')' || c = ' '

/-- Translation of utils.validate_group_name:
    re.fullmatch(r"\w[\w\-.() ]*", s) is not None -/
def validate_group_name : Str → Bool
  | [] => false
  | c :: rest => isWordChar c && rest.all groupRestChar

/-- Separator characters of the project-name grammar: the class [._-]
inside a segment, or the "/" between segments (both must be followed by
an alphanumeric character, so they can be handled uniformly). -/
def isSepChar (c : Char) : Bool :=
  c = '.' || c = '_' || c = '-' || c = '/'

/-- State machine for the part of the project-name regex after its first
character: alternating alphanumeric runs and single separators, ending
on an alphanumeric character. -/
def projAux : Str → Bool
  | [] => true
  | c :: rest =>
      if c.isAlphanum then projAux rest
      else if isSepChar c then
        match rest with
        | [] => false
        | d :: ds => d.isAlphanum && projAux ds
      else false

/-- Translation of utils.validate_project_name:
    re.fullmatch(r"[a-zA-Z0-9]+([._-][a-zA-Z0-9]+)*(/[a-zA-Z0-9]+([._-][a-zA-Z0-9]+)*)*", s)
    is not None.  The regex is a nonempty "/"-separated list of segments,
    each a nonempty list of alphanumeric runs joined by single [._-]
    separators; equivalently: first character alphanumeric, every
    character alphanumeric or a separator, and every separator followed
    by an alphanumeric character. -/
def validate_project_name : Str → Bool
  | [] => false
  | c :: rest => c.isAlphanum && projAux rest

/-- Python str.isspace characters relevant to str.strip (ASCII part). -/
def pySpace (c : Char) : Bool :=
  c = ' ' || c = '\t' || c = '\n' || c = '\r' || c = '\x0b' || c = '\x0c'

/-- Model of str.strip() for ASCII whitespace. -/
def pyStrip (s : Str) : Str :=
  ((s.dropWhile pySpace).reverse.dropWhile pySpace).reverse

/-- Translation of posixpath.split:
    i = p.rfind(sep) + 1
    head, tail = p[:i], p[i:]
    if head and head != sep*len(head): head = head.rstrip(sep)
    return head, tail -/
def ospathSplit (p : Str) : Str × Str :=
  let tail := (p.reverse.takeWhile (fun c => c != '/')).reverse
  let head := (p.reverse.dropWhile (fun c => c != '/')).reverse
  let head2 :=
    if head ≠ [] ∧ ¬ (head.all (fun c => c = '/')) then
      (head.reverse.dropWhile (fun c => c = '/')).reverse
    else head
  (head2, tail)

/-- Translation of posixpath.basename: everything after the final slash. -/
def basename (p : Str) : Str :=
  (p.reverse.takeWhile (fun c => c != '/')).reverse

/-- Characters of urllib.parse.scheme_chars. -/
def schemeChar (c : Char) : Bool :=
  c.isAlpha || c.isDigit || c = '+' || c = '-' || c = '.'

/-- Does the url start with an ASCII letter (url[0].isascii() and
url[0].isalpha() in urlsplit)? -/
def headAlphaAscii : Str → Bool
  | [] => false
  | c :: _ => decide (c.toNat < 128) && c.isAlpha

/-- Scheme detection step of urlsplit:
    i = url.find(":")
    if i > 0 and url[0].isascii() and url[0].isalpha():
        for c in url[:i]:
            if c not in scheme_chars: break
        else: scheme, url = url[:i].lower(), url[i+1:]
Returns the (lowercased) scheme and the remainder. -/
def schemeSplit (u : Str) : Str × Str :=
  let pre := u.takeWhile (fun c => c != ':')
  if pre.length < u.length ∧ 0 < pre.length ∧ headAlphaAscii u = true ∧
      pre.all schemeChar = true then
    (pre.map Char.toLower, u.drop (pre.length + 1))
  else ([], u)

/-- The urllib.parse.uses_params list. -/
def usesParams : List Str :=
  (["", "ftp", "hdl", "prospero", "http", "imap", "https", "shttp", "rtsp",
    "rtsps", "rtspu", "sip", "sips", "mms", "sftp", "tel"]).map String.data

/-- Translation of urllib.parse._splitparams (caller guarantees that ";"
occurs in the url), keeping only the path part:
    if "/" in url:
        i = url.find(";", url.rfind("/"))
        if i < 0: return url, the-empty-string
    else: i = url.find(";")
    return url[:i], url[i+1:] -/
def splitParams (u : Str) : Str :=
  if '/' ∈ u then
    let lastSeg := (u.reverse.takeWhile (fun c => c != '/')).reverse
    if ';' ∈ lastSeg then
      u.take (u.length - lastSeg.length) ++ lastSeg.takeWhile (fun c => c != ';')
    else u
  else u.takeWhile (fun c => c != ';')

/-- Model of urllib.parse.urlparse(source).path, CPython 3.11 (see the
file header).  Returns the path component, or the ValueError urlsplit
raises on a netloc containing "[" without "]" (or "]" without "[").
The bracketed-host validation and the _checknetloc NFKC check (which can
raise only for netlocs with both brackets, resp. with non-ASCII
characters) are not modelled; the theorems below therefore restrict any
quantified netloc to bracket-free ASCII characters, where this function
agrees with CPython exactly. -/
def urlparsePath (url0 : Str) : Except PyExc Str :=
  let url1 := (url0.dropWhile (fun c => decide (c.toNat ≤ 32))).filter
      (fun c => !(c = '\t' || c = '\r' || c = '\n'))
  let sp := schemeSplit url1
  let scheme := sp.1
  let u := sp.2
  let netloc :=
    if u.take 2 = ['/', '/'] then
      (u.drop 2).takeWhile (fun c => !(c = '/' || c = '?' || c = '#'))
    else []
  let u2 :=
    if u.take 2 = ['/', '/'] then
      (u.drop 2).dropWhile (fun c => !(c = '/' || c = '?' || c = '#'))
    else u
  if ('[' ∈ netloc ∧ ']' ∉ netloc) ∨ (']' ∈ netloc ∧ '[' ∉ netloc) then
    .error .valueError
  else
    let u3 := (u2.takeWhile (fun c => c != '#')).takeWhile (fun c => c != '?')
    .ok (if scheme ∈ usesParams ∧ ';' ∈ u3 then splitParams u3 else u3)

/-- Everything utils.get_project_name_and_group does after urlparse
succeeded with the given path:
    group, project = os.path.split(clean_name(parsed.path))
    if group and group.strip(): group = os.path.basename(group)
    if project and project.strip(): project = clean_name(project)
    return (project if validate_project_name(project) else None,
            group if validate_group_name(group) else None) -/
def fromPath (path : Str) : Option Str × Option Str :=
  let pr := ospathSplit (clean_name path)
  let group0 := pr.1
  let project0 := pr.2
  let group1 := if group0 ≠ [] ∧ pyStrip group0 ≠ [] then basename group0 else group0
  let project1 := if project0 ≠ [] ∧ pyStrip project0 ≠ [] then clean_name project0 else project0
  ((if validate_project_name project1 then some project1 else none),
   (if validate_group_name group1 then some group1 else none))

/-- Translation of utils.get_project_name_and_group.  The try block
catches the ValueError raised by urlparse and sets group and project to
None; the code then falls through to validate_project_name(None), and
re.fullmatch(pattern, None) raises a TypeError outside the try block, so
on any urlparse failure the function raises TypeError. -/
def get_project_name_and_group (source : Str) : Except PyExc (Option Str × Option Str) :=
  match urlparsePath source with
  | .error _ => .error .typeError
  | .ok path => .ok (fromPath path)

/-- Python truthiness of an optional string (None and the empty string
are falsy). -/
def pyTruthyOpt : Option Str → Bool
  | none => false
  | some s => s ≠ []

/-- Python "a or b" for optional strings, as in
    project_name = options.project_name or inferred_project. -/
def pyOrStr (a b : Option Str) : Option Str :=
  match a with
  | some s => if s ≠ [] then some s else b
  | none => b

/-- Target-resolution step of main.main():
    inferred_project, inferred_group = utils.get_project_name_and_group(options.source)
    project_name = options.project_name or inferred_project
    group_name = options.group_name or inferred_group
    if not project_name: ... return exit_with_error()   # sys.exit(-1)
An exception escaping get_project_name_and_group is uncaught in main and
crashes the run (outer .error); otherwise the inner value is either the
exit code -1 or the resolved (project, group) pair handed to backup_repo. -/
def mainResolve (source : Str) (explicitP explicitG : Option Str) :
    Except PyExc (Except Int (Option Str × Option Str)) :=
  match get_project_name_and_group source with
  | .error e => .error e
  | .ok (ip, ig) =>
      let project := pyOrStr explicitP ip
      let group := pyOrStr explicitG ig
      if pyTruthyOpt project = false then .ok (.error (-1))
      else .ok (.ok (project, group))

/-- Modelled from the spec (claim C5 wording): the same post-parse
pipeline as fromPath, but taking "the path component verbatim as the
path to split", i.e. without the colon-splitting that clean_name applies
(the inner clean_name on the project candidate is kept as in the code;
it is the treatment of the outer path the claim speaks about). -/
def fromPathVerbatim (path : Str) : Option Str × Option Str :=
  let pr := ospathSplit (subGitSlash path)
  let group0 := pr.1
  let project0 := pr.2
  let group1 := if group0 ≠ [] ∧ pyStrip group0 ≠ [] then basename group0 else group0
  let project1 := if project0 ≠ [] ∧ pyStrip project0 ≠ [] then clean_name project0 else project0
  ((if validate_project_name project1 then some project1 else none),
   (if validate_group_name group1 then some group1 else none))

/-- The URL dialects named by the specification. -/
inductive Dialect
  | scp
  | ssh
  | git
  | rsync
  | http
  | https
  | file
  | bare
deriving DecidableEq

/-- Scheme prefix of each URL-scheme dialect (unused for scp and bare). -/
def schemeOf : Dialect → Str
  | .ssh => "ssh".data
  | .git => "git".data
  | .rsync => "rsync".data
  | .http => "http".data
  | .https => "https".data
  | .file => "file".data
  | .scp => []
  | .bare => []

/-- An input of the given dialect whose path ends in dir/group/project.git:
scp-style is authority:dir-group-project, a scheme dialect is
scheme://authority/dir-group-project, bare is the plain path. -/
def renderGroup (d : Dialect) (auth dir g p : Str) : Str :=
  match d with
  | .scp => auth ++ ':' :: (dir ++ (g ++ '/' :: (p ++ ['.', 'g', 'i', 't'])))
  | .bare => dir ++ (g ++ '/' :: (p ++ ['.', 'g', 'i', 't']))
  | d => schemeOf d ++ ':' :: '/' :: '/' ::
      (auth ++ '/' :: (dir ++ (g ++ '/' :: (p ++ ['.', 'g', 'i', 't']))))

/-- An input of the given dialect with no intermediate directory segment:
the path is just project.git, optionally rooted at "/" (scheme dialects
always have the leading "/"). -/
def renderNoGroup (d : Dialect) (auth lead p : Str) : Str :=
  match d with
  | .scp => auth ++ ':' :: (lead ++ (p ++ ['.', 'g', 'i', 't']))
  | .bare => lead ++ (p ++ ['.', 'g', 'i', 't'])
  | d => schemeOf d ++ ':' :: '/' :: '/' :: (auth ++ '/' :: (p ++ ['.', 'g', 'i', 't']))

/-- Well-formedness of the group and project segments: both satisfy their
grammars, the project is a single path segment, and the project does not
itself end in a character followed by "git" (otherwise the second
clean_name application strips it further; see claim C1). -/
def NamesOK (g p : Str) : Prop :=
  validate_group_name g = true ∧ validate_project_name p = true ∧
  '/' ∉ p ∧ endsGitB p = false

/-- Well-formedness of the directory prefix in front of the group segment:
empty or slash-terminated, not starting with "//", made of printable
characters that are not URL delimiters. -/
def DirOK (dir : Str) : Prop :=
  (dir = [] ∨ ∃ t, dir = t ++ ['/']) ∧ dir.take 2 ≠ ['/', '/'] ∧
  ∀ c ∈ dir, 32 < c.toNat ∧ c ≠ ':' ∧ c ≠ '?' ∧ c ≠ '#' ∧ c ≠ ';'

/-- Well-formedness of the authority part, per dialect.  For scp-style the
authority is user@host (no colon, no slash); since such inputs never have a
netloc, its characters need not be ASCII.  For scheme dialects the
authority is the netloc, which may freely contain credentials, host and
port (colons and "@"), but none of the characters that end the netloc, no
brackets (the bracketed-host validation of urlsplit is not modelled), and
only ASCII characters: for a non-ASCII netloc CPython additionally runs
the NFKC check of _checknetloc, which can raise ValueError and is not
modelled (for an ASCII netloc _checknetloc returns immediately, so the
model is exact there). -/
@[reducible] def AuthOK : Dialect → Str → Prop
  | .scp, a => (∃ a0 as, a = a0 :: as ∧ 32 < a0.toNat) ∧
      ∀ c ∈ a, c ≠ ':' ∧ c ≠ '/' ∧ c ≠ '?' ∧ c ≠ '#' ∧ c ≠ ';' ∧
        c ≠ '\t' ∧ c ≠ '\r' ∧ c ≠ '\n'
  | .bare, _ => True
  | _, a => ∀ c ∈ a, c.toNat < 128 ∧ (c ≠ '/' ∧ c ≠ '?' ∧ c ≠ '#' ∧ c ≠ '[' ∧
      c ≠ ']' ∧ c ≠ '\t' ∧ c ≠ '\r' ∧ c ≠ '\n')

/-! Helper lemmas: lists. -/

theorem takeWhile_all {p : Char → Bool} {l : Str} (h : ∀ a ∈ l, p a = true) :
    l.takeWhile p = l := List.takeWhile_eq_self_iff.mpr h

theorem takeWhile_append_stop {p : Char → Bool} {l m : Str} {x : Char}
    (hl : ∀ a ∈ l, p a = true) (hx : p x = false) :
    (l ++ x :: m).takeWhile p = l := by
  induction l with
  | nil => simp [List.takeWhile_cons, hx]
  | cons a t ih =>
      have ha : p a = true := hl a (by simp)
      simp only [List.cons_append, List.takeWhile_cons, ha, if_true]
      rw [ih (fun b hb => hl b (by simp [hb]))]

theorem dropWhile_append_stop {p : Char → Bool} {l m : Str} {x : Char}
    (hl : ∀ a ∈ l, p a = true) (hx : p x = false) :
    (l ++ x :: m).dropWhile p = x :: m := by
  induction l with
  | nil => simp [List.dropWhile_cons, hx]
  | cons a t ih =>
      have ha : p a = true := hl a (by simp)
      simp only [List.cons_append, List.dropWhile_cons, ha, if_true]
      exact ih (fun b hb => hl b (by simp [hb]))

theorem dropWhile_all {p : Char → Bool} {l : Str} (h : ∀ a ∈ l, p a = true) :
    l.dropWhile p = [] := List.dropWhile_eq_nil_iff.mpr h

theorem dropWhile_head_false {p : Char → Bool} {a : Char} {l : Str} (h : p a = false) :
    (a :: l).dropWhile p = a :: l := by
  simp [List.dropWhile_cons, h]

theorem filter_all {p : Char → Bool} {l : Str} (h : ∀ a ∈ l, p a = true) :
    l.filter p = l := List.filter_eq_self.mpr h

theorem mem_dropWhile_of {p : Char → Bool} {c : Char} {l : Str}
    (hc : c ∈ l) (h : p c = false) : c ∈ l.dropWhile p := by
  induction l with
  | nil => simp at hc
  | cons a t ih =>
      rcases List.mem_cons.mp hc with rfl | hc
      · simp [List.dropWhile_cons, h]
      · by_cases ha : p a = true
        · simpa [List.dropWhile_cons, ha] using ih hc
        · simp only [List.dropWhile_cons]
          rw [if_neg (by simp [Bool.not_eq_true] at ha ⊢; exact ha)]
          exact List.mem_cons_of_mem a hc

theorem drop_scheme {sch V : Str} : (sch ++ ':' :: V).drop (sch.length + 1) = V := by
  have h : sch ++ ':' :: V = (sch ++ [':']) ++ V := by simp
  rw [h, show sch.length + 1 = (sch ++ [':']).length by simp]
  exact List.drop_left _ _

theorem take2_append_ne {l m : Str} (hl : l.take 2 ≠ ['/', '/'])
    (hm : ∃ c0 cs, m = c0 :: cs ∧ c0 ≠ '/') : (l ++ m).take 2 ≠ ['/', '/'] := by
  obtain ⟨c0, cs, rfl, hc0⟩ := hm
  match l with
  | [] =>
      intro h
      simp at h
      exact hc0 h.1
  | [a] =>
      intro h
      simp at h
      exact hc0 h.2
  | a :: b :: t =>
      intro h
      simp at h
      exact hl (by simp [h.1, h.2])

/-! Helper lemmas: characters. -/

theorem ne_of_pred {p : Char → Bool} {c x : Char} (h : p c = true) (hx : p x = false) :
    c ≠ x := by
  intro he
  rw [he, hx] at h
  exact Bool.noConfusion h

theorem alnum_gt32 {c : Char} (h : c.isAlphanum = true) : 32 < c.toNat := by
  simp [Char.isAlphanum, Char.isAlpha, Char.isUpper, Char.isLower, Char.isDigit] at h
  rcases h with (⟨h1, -⟩ | ⟨h1, -⟩) | ⟨h1, -⟩
  · exact lt_of_lt_of_le (by decide) (show (65 : UInt32).toNat ≤ c.val.toNat from h1)
  · exact lt_of_lt_of_le (by decide) (show (97 : UInt32).toNat ≤ c.val.toNat from h1)
  · exact lt_of_lt_of_le (by decide) (show (48 : UInt32).toNat ≤ c.val.toNat from h1)

theorem wordChar_gt32 {c : Char} (h : isWordChar c = true) : 32 < c.toNat := by
  rcases Bool.or_eq_true_iff.mp h with h1 | h1
  · exact alnum_gt32 h1
  · rw [show c = '_' by simpa using h1]
    decide

theorem gt32_ne {c : Char} (h : 32 < c.toNat) :
    c ≠ '\t' ∧ c ≠ '\r' ∧ c ≠ '\n' ∧ pySpace c = false := by
  refine ⟨?_, ?_, ?_, ?_⟩
  · rintro rfl; exact absurd h (by decide)
  · rintro rfl; exact absurd h (by decide)
  · rintro rfl; exact absurd h (by decide)
  · cases hps : pySpace c with
    | false => rfl
    | true =>
        exfalso
        have hx : c = ' ' ∨ c = '\t' ∨ c = '\n' ∨ c = '\r' ∨ c = '\x0b' ∨ c = '\x0c' := by
          simp [pySpace] at hps
          tauto
        rcases hx with rfl | rfl | rfl | rfl | rfl | rfl <;> exact absurd h (by decide)

/-! Helper lemmas: the name validators. -/

theorem projAux_chars (l : Str) :
    projAux l = true → ∀ c ∈ l, (c.isAlphanum || isSepChar c) = true := by
  induction l using projAux.induct with
  | case1 => intro _ c hc; simp at hc
  | case2 c rest hal ih =>
      intro h d hd
      rw [projAux.eq_def] at h
      simp [hal] at h
      rcases List.mem_cons.mp hd with rfl | hd
      · simp [hal]
      · exact ih h d hd
  | case3 c hal hsep =>
      intro h
      rw [projAux.eq_def] at h
      simp [hal, hsep] at h
  | case4 c hal hsep d ds ih =>
      intro h e he
      rw [projAux.eq_def] at h
      simp [hal, hsep] at h
      rcases List.mem_cons.mp he with rfl | he
      · simp [hsep]
      · rcases List.mem_cons.mp he with rfl | he
        · simp [h.1]
        · exact ih h.2 e he
  | case5 c rest hal hsep =>
      intro h
      rw [projAux.eq_def] at h
      simp [hal, hsep] at h

theorem projAux_last (l : Str) :
    projAux l = true → l = [] ∨ ∃ t c, l = t ++ [c] ∧ c.isAlphanum = true := by
  induction l using projAux.induct with
  | case1 => intro _; exact Or.inl rfl
  | case2 c rest hal ih =>
      intro h
      rw [projAux.eq_def] at h
      simp [hal] at h
      rcases ih h with rfl | ⟨t, e, rfl, he⟩
      · exact Or.inr ⟨[], c, rfl, hal⟩
      · exact Or.inr ⟨c :: t, e, rfl, he⟩
  | case3 c hal hsep =>
      intro h
      rw [projAux.eq_def] at h
      simp [hal, hsep] at h
  | case4 c hal hsep d ds ih =>
      intro h
      rw [projAux.eq_def] at h
      simp [hal, hsep] at h
      rcases ih h.2 with rfl | ⟨t, e, rfl, he⟩
      · exact Or.inr ⟨[c], d, rfl, h.1⟩
      · exact Or.inr ⟨c :: d :: t, e, rfl, he⟩
  | case5 c rest hal hsep =>
      intro h
      rw [projAux.eq_def] at h
      simp [hal, hsep] at h

theorem vpn_shape {p : Str} (h : validate_project_name p = true) :
    ∃ c rest, p = c :: rest ∧ c.isAlphanum = true ∧ projAux rest = true := by
  match p with
  | [] => exact absurd h (by decide)
  | c :: rest =>
      rw [validate_project_name] at h
      exact ⟨c, rest, rfl, (Bool.and_eq_true _ _ |>.mp h).1, (Bool.and_eq_true _ _ |>.mp h).2⟩

theorem vpn_chars {p : Str} (h : validate_project_name p = true) :
    ∀ c ∈ p, (c.isAlphanum || isSepChar c) = true := by
  obtain ⟨c, rest, rfl, hc, hrest⟩ := vpn_shape h
  intro d hd
  rcases List.mem_cons.mp hd with rfl | hd
  · simp [hc]
  · exact projAux_chars rest hrest d hd

theorem vpn_last {p : Str} (h : validate_project_name p = true) :
    ∃ t c, p = t ++ [c] ∧ c.isAlphanum = true := by
  obtain ⟨c, rest, rfl, hc, hrest⟩ := vpn_shape h
  rcases projAux_last rest hrest with rfl | ⟨t, e, rfl, he⟩
  · exact ⟨[], c, rfl, hc⟩
  · exact ⟨c :: t, e, rfl, he⟩

theorem vgn_shape {g : Str} (h : validate_group_name g = true) :
    ∃ c rest, g = c :: rest ∧ isWordChar c = true ∧ ∀ d ∈ rest, groupRestChar d = true := by
  match g with
  | [] => exact absurd h (by decide)
  | c :: rest =>
      rw [validate_group_name] at h
      have h2 := Bool.and_eq_true _ _ |>.mp h
      exact ⟨c, rest, rfl, h2.1, List.all_eq_true.mp h2.2⟩

theorem vgn_chars {g : Str} (h : validate_group_name g = true) :
    ∀ d ∈ g, groupRestChar d = true := by
  obtain ⟨c, rest, rfl, hc, hrest⟩ := vgn_shape h
  intro d hd
  rcases List.mem_cons.mp hd with rfl | hd
  · simp [groupRestChar, hc]
  · exact hrest d hd

theorem vgn_last {g : Str} (h : validate_group_name g = true) :
    ∃ t c, g = t ++ [c] ∧ groupRestChar c = true := by
  have hne : g ≠ [] := by
    obtain ⟨c, rest, rfl, -, -⟩ := vgn_shape h
    simp
  refine ⟨g.dropLast, g.getLast hne, (List.dropLast_append_getLast hne).symm, ?_⟩
  exact vgn_chars h _ (List.getLast_mem hne)

/-! Helper lemmas: the suffix strip of clean_name. -/

theorem stripCore_append_git (xs : Str) (c : Char) (hc : c ≠ '\n') :
    stripCore (xs ++ [c, 'g', 'i', 't']) = xs := by
  simp [stripCore, hc]

theorem stripCore_append_slash (xs : Str) (hx : endsGitB xs = false) :
    stripCore (xs ++ ['/']) = xs := by
  unfold stripCore
  unfold endsGitB at hx
  split
  case _ c rs heq =>
    exfalso
    simp at heq
    subst heq
    simp at hx
  case _ c rs heq =>
    exfalso
    simp at heq
  case _ rs heq =>
    simp at heq
    subst heq
    simp
  case _ h1 h2 h3 =>
    exact absurd (show (xs ++ ['/']).reverse = '/' :: xs.reverse by simp)
      (fun hh => h3 xs.reverse hh)

theorem stripCore_eq_self (t : Str) (h1 : endsGitB t = false)
    (h2 : t.reverse.head? ≠ some '/') : stripCore t = t := by
  unfold stripCore
  unfold endsGitB at h1
  split
  case _ c rs heq => exact absurd (by rw [heq]; rfl) h2
  case _ c rs heq => rw [heq] at h1; simp at h1
  case _ rs heq => exact absurd (by rw [heq]; rfl) h2
  case _ => rfl

theorem subGitSlash_no_newline (s : Str) (h : s.reverse.head? ≠ some '\n') :
    subGitSlash s = stripCore s := by
  unfold subGitSlash
  split
  case _ rs heq => exact absurd (by rw [heq]; rfl) h
  case _ => rfl

theorem subGit_append_git (xs : Str) (c : Char) (hc : c ≠ '\n') :
    subGitSlash (xs ++ [c, 'g', 'i', 't']) = xs := by
  rw [subGitSlash_no_newline _ (by simp), stripCore_append_git _ _ hc]

theorem subGit_append_slash (xs : Str) (hx : endsGitB xs = false) :
    subGitSlash (xs ++ ['/']) = xs := by
  rw [subGitSlash_no_newline _ (by simp), stripCore_append_slash _ hx]

theorem subGit_eq_self {t : Str} (h1 : endsGitB t = false)
    (h2 : t.reverse.head? ≠ some '/') (h3 : t.reverse.head? ≠ some '\n') :
    subGitSlash t = t := by
  rw [subGitSlash_no_newline _ h3, stripCore_eq_self _ h1 h2]

/-! Helper lemmas: afterLastColon. -/

theorem alc_no_colon {s : Str} (h : ':' ∉ s) : afterLastColon s = s := by
  unfold afterLastColon
  rw [takeWhile_all (fun a ha => bne_iff_ne.mpr
    (fun he => h (by rw [← he]; exact List.mem_reverse.mp ha))), List.reverse_reverse]

theorem alc_append {a b : Str} (hb : ':' ∉ b) : afterLastColon (a ++ ':' :: b) = b := by
  unfold afterLastColon
  rw [show (a ++ ':' :: b).reverse = b.reverse ++ ':' :: a.reverse by simp]
  rw [takeWhile_append_stop (fun x hx => bne_iff_ne.mpr
    (fun he => hb (by rw [← he]; exact List.mem_reverse.mp hx))) (by decide),
    List.reverse_reverse]

/-! Helper lemmas: ospathSplit, basename, pyStrip. -/

theorem ospathSplit_sep (A p : Str) (hp : ∀ c ∈ p, c ≠ '/')
    (hA : ∃ t cg, A = t ++ [cg] ∧ cg ≠ '/') :
    ospathSplit (A ++ '/' :: p) = (A, p) := by
  obtain ⟨t, cg, rfl, hcg⟩ := hA
  have hp2 : ∀ a ∈ p.reverse, (a != '/') = true :=
    fun a ha => bne_iff_ne.mpr (hp a (List.mem_reverse.mp ha))
  unfold ospathSplit
  rw [show ((t ++ [cg]) ++ '/' :: p).reverse = p.reverse ++ '/' :: (cg :: t.reverse) by simp]
  rw [takeWhile_append_stop hp2 (by decide), dropWhile_append_stop hp2 (by decide)]
  simp only [List.reverse_reverse]
  rw [if_pos ?cond]
  case cond =>
    constructor
    · simp
    · intro hall
      have := List.all_eq_true.mp hall cg (by simp)
      simp at this
      exact hcg this
  rw [List.dropWhile_cons, if_pos (by simp), dropWhile_head_false (by simp [hcg])]
  simp

theorem ospathSplit_nosep (p : Str) (hp : ∀ c ∈ p, c ≠ '/') :
    ospathSplit p = ([], p) := by
  have hp2 : ∀ a ∈ p.reverse, (a != '/') = true :=
    fun a ha => bne_iff_ne.mpr (hp a (List.mem_reverse.mp ha))
  unfold ospathSplit
  rw [takeWhile_all hp2, dropWhile_all hp2]
  simp

theorem ospathSplit_root (p : Str) (hp : ∀ c ∈ p, c ≠ '/') :
    ospathSplit ('/' :: p) = (['/'], p) := by
  have hp2 : ∀ a ∈ p.reverse, (a != '/') = true :=
    fun a ha => bne_iff_ne.mpr (hp a (List.mem_reverse.mp ha))
  unfold ospathSplit
  rw [show ('/' :: p).reverse = p.reverse ++ '/' :: [] by simp]
  rw [takeWhile_append_stop hp2 (by decide), dropWhile_append_stop hp2 (by decide)]
  simp only [List.reverse_reverse]
  rw [if_neg (by simp)]
  simp

theorem basename_append (A g : Str) (hg : ∀ c ∈ g, c ≠ '/')
    (hA : A = [] ∨ ∃ t, A = t ++ ['/']) : basename (A ++ g) = g := by
  have hg2 : ∀ a ∈ g.reverse, (a != '/') = true :=
    fun a ha => bne_iff_ne.mpr (hg a (List.mem_reverse.mp ha))
  unfold basename
  rcases hA with rfl | ⟨t, rfl⟩
  · rw [List.nil_append, takeWhile_all hg2, List.reverse_reverse]
  · rw [show ((t ++ ['/']) ++ g).reverse = g.reverse ++ '/' :: t.reverse by simp]
    rw [takeWhile_append_stop hg2 (by decide), List.reverse_reverse]

theorem pyStrip_ne_nil {s : Str} {c : Char} (hc : c ∈ s) (hcs : pySpace c = false) :
    pyStrip s ≠ [] := by
  intro h
  unfold pyStrip at h
  have h1 : (s.dropWhile pySpace).reverse.dropWhile pySpace = [] := by
    simpa using h
  have h2 := List.dropWhile_eq_nil_iff.mp h1
  have h3 : c ∈ s.dropWhile pySpace := mem_dropWhile_of hc hcs
  have h4 := h2 c (List.mem_reverse.mpr h3)
  rw [hcs] at h4
  exact Bool.noConfusion h4

/-! Helper lemmas: the post-parse pipeline fromPath. -/

theorem fromPath_group {path pre g p : Str}
    (halc : afterLastColon path = pre ++ (g ++ '/' :: (p ++ ['.', 'g', 'i', 't'])))
    (hpre : pre = [] ∨ ∃ t, pre = t ++ ['/'])
    (hg : validate_group_name g = true)
    (hp : validate_project_name p = true)
    (hslash : '/' ∉ p)
    (hgit : endsGitB p = false) :
    fromPath path = (some p, some g) := by
  have hclean : clean_name path = (pre ++ g) ++ '/' :: p := by
    unfold clean_name
    rw [halc, show pre ++ (g ++ '/' :: (p ++ ['.', 'g', 'i', 't']))
      = ((pre ++ g) ++ '/' :: p) ++ ['.', 'g', 'i', 't'] by simp]
    exact subGit_append_git _ _ (by decide)
  obtain ⟨tg, cg, hgdec, hcg⟩ := vgn_last hg
  have hsplit : ospathSplit ((pre ++ g) ++ '/' :: p) = (pre ++ g, p) := by
    apply ospathSplit_sep
    · exact fun c hcp he => hslash (he ▸ hcp)
    · exact ⟨pre ++ tg, cg, by rw [hgdec]; simp, ne_of_pred hcg (by decide)⟩
  obtain ⟨c0, grest, hg0, hw, -⟩ := vgn_shape hg
  obtain ⟨p0, prest, hp0, hpa, -⟩ := vpn_shape hp
  have hgne : (pre ++ g : Str) ≠ [] := by rw [hg0]; simp
  have hgstrip : pyStrip (pre ++ g) ≠ [] :=
    pyStrip_ne_nil (by rw [hg0]; simp) (gt32_ne (wordChar_gt32 hw)).2.2.2
  have hbase : basename (pre ++ g) = g :=
    basename_append _ _ (fun c hc2 => ne_of_pred (vgn_chars hg c hc2) (by decide)) hpre
  have hpne : p ≠ [] := by rw [hp0]; simp
  have hpstrip : pyStrip p ≠ [] :=
    pyStrip_ne_nil (show p0 ∈ p by rw [hp0]; simp) (gt32_ne (alnum_gt32 hpa)).2.2.2
  obtain ⟨tp, cl, hpdec, hcl⟩ := vpn_last hp
  have hpclean : clean_name p = p := by
    unfold clean_name
    rw [alc_no_colon (fun hc => absurd (vpn_chars hp ':' hc) (by decide))]
    apply subGit_eq_self hgit
    · rw [hpdec]
      simpa using ne_of_pred hcl (by decide)
    · rw [hpdec]
      simpa using ne_of_pred hcl (by decide)
  simp only [fromPath]
  rw [hclean, hsplit]
  simp only
  rw [if_pos (And.intro hgne hgstrip), if_pos (And.intro hpne hpstrip), hpclean, hbase,
    if_pos hp, if_pos hg]

theorem fromPath_nogroup {path lead p : Str}
    (halc : afterLastColon path = lead ++ (p ++ ['.', 'g', 'i', 't']))
    (hlead : lead = [] ∨ lead = ['/'])
    (hp : validate_project_name p = true)
    (hslash : '/' ∉ p)
    (hgit : endsGitB p = false) :
    fromPath path = (some p, none) := by
  have hclean : clean_name path = lead ++ p := by
    unfold clean_name
    rw [halc, show lead ++ (p ++ ['.', 'g', 'i', 't'])
      = (lead ++ p) ++ ['.', 'g', 'i', 't'] by simp]
    exact subGit_append_git _ _ (by decide)
  obtain ⟨p0, prest, hp0, hpa, -⟩ := vpn_shape hp
  have hpchars : ∀ c ∈ p, c ≠ '/' := fun c hcp he => hslash (he ▸ hcp)
  have hpne : p ≠ [] := by rw [hp0]; simp
  have hpstrip : pyStrip p ≠ [] :=
    pyStrip_ne_nil (show p0 ∈ p by rw [hp0]; simp) (gt32_ne (alnum_gt32 hpa)).2.2.2
  obtain ⟨tp, cl, hpdec, hcl⟩ := vpn_last hp
  have hpclean : clean_name p = p := by
    unfold clean_name
    rw [alc_no_colon (fun hc => absurd (vpn_chars hp ':' hc) (by decide))]
    apply subGit_eq_self hgit
    · rw [hpdec]
      simpa using ne_of_pred hcl (by decide)
    · rw [hpdec]
      simpa using ne_of_pred hcl (by decide)
  rcases hlead with rfl | rfl
  · simp only [fromPath]
    rw [hclean, List.nil_append, ospathSplit_nosep p hpchars]
    simp only
    rw [if_neg (show ¬(([] : Str) ≠ [] ∧ pyStrip ([] : Str) ≠ []) by simp),
      if_pos (And.intro hpne hpstrip), hpclean, if_pos hp,
      if_neg (show ¬(validate_group_name ([] : Str) = true) by decide)]
  · simp only [fromPath]
    rw [hclean, show (['/'] ++ p : Str) = '/' :: p by simp, ospathSplit_root p hpchars]
    simp only
    rw [if_pos (And.intro (show (['/'] : Str) ≠ [] by simp)
        (show pyStrip ['/'] ≠ [] by decide)),
      if_pos (And.intro hpne hpstrip), hpclean, if_pos hp,
      show basename ['/'] = [] by decide,
      if_neg (show ¬(validate_group_name ([] : Str) = true) by decide)]

/-! Helper lemmas: urlparsePath. -/

theorem schemeChar_gt32 {c : Char} (h : schemeChar c = true) : 32 < c.toNat := by
  have h2 : c.isAlpha = true ∨ c.isDigit = true ∨ c = '+' ∨ c = '-' ∨ c = '.' := by
    simp [schemeChar] at h
    tauto
  rcases h2 with h3 | h3 | rfl | rfl | rfl
  · exact alnum_gt32 (by simp [Char.isAlphanum, h3])
  · exact alnum_gt32 (by simp [Char.isAlphanum, h3])
  · decide
  · decide
  · decide

theorem unsafe_ok {c : Char} (h1 : c ≠ '\t') (h2 : c ≠ '\r') (h3 : c ≠ '\n') :
    (!(c = '\t' || c = '\r' || c = '\n') : Bool) = true := by
  simp [h1, h2, h3]

theorem notcut_ok {c : Char} (h1 : c ≠ '/') (h2 : c ≠ '?') (h3 : c ≠ '#') :
    (!(c = '/' || c = '?' || c = '#') : Bool) = true := by
  simp [h1, h2, h3]

theorem schemeSplit_fires {sch V : Str} (hne : sch ≠ []) (hall : sch.all schemeChar = true)
    (hhead : headAlphaAscii (sch ++ ':' :: V) = true) :
    schemeSplit (sch ++ ':' :: V) = (sch.map Char.toLower, V) := by
  have hpre : (sch ++ ':' :: V).takeWhile (fun c => c != ':') = sch :=
    takeWhile_append_stop (fun a ha => bne_iff_ne.mpr
      (ne_of_pred (List.all_eq_true.mp hall a ha) (by decide))) (by decide)
  simp only [schemeSplit]
  rw [hpre]
  rw [if_pos (And.intro
    (by simp only [List.length_append, List.length_cons]; omega)
    (And.intro (List.length_pos.mpr hne) (And.intro hhead hall)))]
  rw [drop_scheme]

theorem schemeSplit_skip {u : Str} (h : ':' ∉ u) : schemeSplit u = ([], u) := by
  have hpre : u.takeWhile (fun c => c != ':') = u :=
    takeWhile_all (fun a ha => bne_iff_ne.mpr (fun he => h (by rw [← he]; exact ha)))
  simp only [schemeSplit]
  rw [hpre]
  rw [if_neg (by intro hcon; exact absurd hcon.1 (by simp))]

theorem urlparse_scheme {sch netloc rest : Str}
    (hs : sch ≠ []) (hsc : sch.all schemeChar = true)
    (hsh : headAlphaAscii sch = true)
    (hn : ∀ c ∈ netloc, c ≠ '/' ∧ c ≠ '?' ∧ c ≠ '#' ∧ c ≠ '[' ∧ c ≠ ']' ∧
      c ≠ '\t' ∧ c ≠ '\r' ∧ c ≠ '\n')
    (hr : ∀ c ∈ rest, c ≠ '#' ∧ c ≠ '?' ∧ c ≠ ';' ∧ c ≠ '\t' ∧ c ≠ '\r' ∧ c ≠ '\n') :
    urlparsePath (sch ++ ':' :: '/' :: '/' :: (netloc ++ '/' :: rest)) =
      .ok ('/' :: rest) := by
  obtain ⟨s0, ss, rfl⟩ := List.exists_cons_of_ne_nil hs
  have hs0 : schemeChar s0 = true := List.all_eq_true.mp hsc s0 (by simp)
  have hcons : (s0 :: ss) ++ ':' :: '/' :: '/' :: (netloc ++ '/' :: rest)
      = s0 :: (ss ++ ':' :: '/' :: '/' :: (netloc ++ '/' :: rest)) := by simp
  have hdrop : ((s0 :: ss) ++ ':' :: '/' :: '/' ::
      (netloc ++ '/' :: rest)).dropWhile (fun c => decide (c.toNat ≤ 32)) =
      (s0 :: ss) ++ ':' :: '/' :: '/' :: (netloc ++ '/' :: rest) := by
    rw [hcons]
    exact dropWhile_head_false (decide_eq_false (by
      have := schemeChar_gt32 hs0
      omega))
  have hall3 : ∀ c ∈ (s0 :: ss) ++ ':' :: '/' :: '/' :: (netloc ++ '/' :: rest),
      c ≠ '\t' ∧ c ≠ '\r' ∧ c ≠ '\n' := by
    intro c hc
    rcases List.mem_append.mp hc with hc1 | hc2
    · have := gt32_ne (schemeChar_gt32 (List.all_eq_true.mp hsc c hc1))
      exact ⟨this.1, this.2.1, this.2.2.1⟩
    rcases List.mem_cons.mp hc2 with rfl | hc3
    · exact ⟨by decide, by decide, by decide⟩
    rcases List.mem_cons.mp hc3 with rfl | hc4
    · exact ⟨by decide, by decide, by decide⟩
    rcases List.mem_cons.mp hc4 with rfl | hc5
    · exact ⟨by decide, by decide, by decide⟩
    rcases List.mem_append.mp hc5 with hc6 | hc7
    · exact ⟨(hn c hc6).2.2.2.2.2.1, (hn c hc6).2.2.2.2.2.2.1, (hn c hc6).2.2.2.2.2.2.2⟩
    rcases List.mem_cons.mp hc7 with rfl | hc8
    · exact ⟨by decide, by decide, by decide⟩
    · exact ⟨(hr c hc8).2.2.2.1, (hr c hc8).2.2.2.2.1, (hr c hc8).2.2.2.2.2⟩
  have hfilter : (((s0 :: ss) ++ ':' :: '/' :: '/' ::
      (netloc ++ '/' :: rest))).filter (fun c => !(c = '\t' || c = '\r' || c = '\n')) =
      (s0 :: ss) ++ ':' :: '/' :: '/' :: (netloc ++ '/' :: rest) :=
    filter_all (fun c hc =>
      unsafe_ok (hall3 c hc).1 (hall3 c hc).2.1 (hall3 c hc).2.2)
  have hnet2 : ∀ a ∈ netloc, ((fun c => !(c = '/' || c = '?' || c = '#')) a) = true :=
    fun a ha => notcut_ok (hn a ha).1 (hn a ha).2.1 (hn a ha).2.2.1
  have hu3a : ('/' :: rest).takeWhile (fun c => c != '#') = '/' :: rest :=
    takeWhile_all (by
      intro a ha
      rcases List.mem_cons.mp ha with rfl | ha
      · decide
      · exact bne_iff_ne.mpr (hr a ha).1)
  have hu3b : ('/' :: rest).takeWhile (fun c => c != '?') = '/' :: rest :=
    takeWhile_all (by
      intro a ha
      rcases List.mem_cons.mp ha with rfl | ha
      · decide
      · exact bne_iff_ne.mpr (hr a ha).2.1)
  simp only [urlparsePath]
  rw [hdrop, hfilter,
    schemeSplit_fires hs hsc
      (show headAlphaAscii ((s0 :: ss) ++ ':' :: '/' :: '/' ::
        (netloc ++ '/' :: rest)) = true from hsh)]
  simp only
  rw [if_pos (show (('/' :: '/' :: (netloc ++ '/' :: rest)).take 2 = ['/', '/']) by rfl),
    if_pos (show (('/' :: '/' :: (netloc ++ '/' :: rest)).take 2 = ['/', '/']) by rfl)]
  rw [show ('/' :: '/' :: (netloc ++ '/' :: rest)).drop 2 = netloc ++ '/' :: rest by rfl]
  rw [takeWhile_append_stop hnet2 (by decide), dropWhile_append_stop hnet2 (by decide)]
  rw [if_neg (by
    rintro (⟨hin, -⟩ | ⟨hin, -⟩)
    · exact absurd rfl (hn _ hin).2.2.2.1
    · exact absurd rfl (hn _ hin).2.2.2.2.1)]
  rw [hu3a, hu3b]
  rw [if_neg (by
    rintro ⟨-, hm⟩
    rcases List.mem_cons.mp hm with h1 | h1
    · exact absurd h1.symm (by decide)
    · exact absurd rfl (hr _ h1).2.2.1)]

theorem urlparse_noscheme {u : Str}
    (h0 : ∃ c0 cs, u = c0 :: cs ∧ 32 < c0.toNat)
    (hcolon : ':' ∉ u)
    (h2 : u.take 2 ≠ ['/', '/'])
    (hu : ∀ c ∈ u, c ≠ '#' ∧ c ≠ '?' ∧ c ≠ ';' ∧ c ≠ '\t' ∧ c ≠ '\r' ∧ c ≠ '\n') :
    urlparsePath u = .ok u := by
  obtain ⟨c0, cs, rfl, h32⟩ := h0
  have hdrop : (c0 :: cs).dropWhile (fun c => decide (c.toNat ≤ 32)) = c0 :: cs :=
    dropWhile_head_false (decide_eq_false (by omega))
  have hfilter : (c0 :: cs).filter (fun c => !(c = '\t' || c = '\r' || c = '\n')) =
      c0 :: cs :=
    filter_all (fun c hc =>
      unsafe_ok (hu c hc).2.2.2.1 (hu c hc).2.2.2.2.1 (hu c hc).2.2.2.2.2)
  have hta : (c0 :: cs).takeWhile (fun c => c != '#') = c0 :: cs :=
    takeWhile_all (fun a ha => bne_iff_ne.mpr (hu a ha).1)
  have htb : (c0 :: cs).takeWhile (fun c => c != '?') = c0 :: cs :=
    takeWhile_all (fun a ha => bne_iff_ne.mpr (hu a ha).2.1)
  simp only [urlparsePath]
  rw [hdrop, hfilter, schemeSplit_skip hcolon]
  simp only
  rw [if_neg h2, if_neg h2]
  rw [if_neg (by rintro (⟨hin, -⟩ | ⟨hin, -⟩) <;> simp at hin)]
  rw [hta, htb]
  rw [if_neg (by rintro ⟨-, hm⟩; exact absurd rfl (hu _ hm).2.2.1)]

theorem urlparse_scp {auth rest : Str}
    (ha : ∃ a0 as, auth = a0 :: as ∧ 32 < a0.toNat)
    (hauth : ∀ c ∈ auth, c ≠ ':' ∧ c ≠ '/' ∧ c ≠ '?' ∧ c ≠ '#' ∧ c ≠ ';' ∧
      c ≠ '\t' ∧ c ≠ '\r' ∧ c ≠ '\n')
    (hrest : ∀ c ∈ rest, c ≠ ':' ∧ c ≠ '#' ∧ c ≠ '?' ∧ c ≠ ';' ∧
      c ≠ '\t' ∧ c ≠ '\r' ∧ c ≠ '\n')
    (hr2 : rest.take 2 ≠ ['/', '/']) :
    ∃ path, urlparsePath (auth ++ ':' :: rest) = .ok path ∧
      afterLastColon path = rest := by
  obtain ⟨a0, as, rfl, h32⟩ := ha
  have hcons : (a0 :: as) ++ ':' :: rest = a0 :: (as ++ ':' :: rest) := by simp
  have hdrop : ((a0 :: as) ++ ':' :: rest).dropWhile (fun c => decide (c.toNat ≤ 32)) =
      (a0 :: as) ++ ':' :: rest := by
    rw [hcons]
    exact dropWhile_head_false (decide_eq_false (by omega))
  have hall3 : ∀ c ∈ (a0 :: as) ++ ':' :: rest, c ≠ '\t' ∧ c ≠ '\r' ∧ c ≠ '\n' := by
    intro c hc
    rcases List.mem_append.mp hc with hc1 | hc2
    · exact ⟨(hauth c hc1).2.2.2.2.2.1, (hauth c hc1).2.2.2.2.2.2.1,
        (hauth c hc1).2.2.2.2.2.2.2⟩
    rcases List.mem_cons.mp hc2 with rfl | hc3
    · exact ⟨by decide, by decide, by decide⟩
    · exact ⟨(hrest c hc3).2.2.2.2.1, (hrest c hc3).2.2.2.2.2.1,
        (hrest c hc3).2.2.2.2.2.2⟩
  have hfilter : ((a0 :: as) ++ ':' :: rest).filter
      (fun c => !(c = '\t' || c = '\r' || c = '\n')) = (a0 :: as) ++ ':' :: rest :=
    filter_all (fun c hc =>
      unsafe_ok (hall3 c hc).1 (hall3 c hc).2.1 (hall3 c hc).2.2)
  have hrta : rest.takeWhile (fun c => c != '#') = rest :=
    takeWhile_all (fun a haa => bne_iff_ne.mpr (hrest a haa).2.1)
  have hrtb : rest.takeWhile (fun c => c != '?') = rest :=
    takeWhile_all (fun a haa => bne_iff_ne.mpr (hrest a haa).2.2.1)
  have hrnosc : ':' ∉ rest := fun hc => absurd rfl (hrest ':' hc).1
  by_cases hfire : headAlphaAscii ((a0 :: as) ++ ':' :: rest) = true ∧
      (a0 :: as).all schemeChar = true
  · -- the scheme split fires: the path is rest
    refine ⟨rest, ?_, alc_no_colon hrnosc⟩
    simp only [urlparsePath]
    rw [hdrop, hfilter, schemeSplit_fires (by simp) hfire.2 hfire.1]
    simp only
    rw [if_neg hr2, if_neg hr2]
    rw [if_neg (by rintro (⟨hin, -⟩ | ⟨hin, -⟩) <;> simp at hin)]
    rw [hrta, hrtb]
    rw [if_neg (by rintro ⟨-, hm⟩; exact absurd rfl (hrest _ hm).2.2.2.1)]
  · -- the scheme split does not fire: the path is the whole input
    refine ⟨(a0 :: as) ++ ':' :: rest, ?_, alc_append hrnosc⟩
    have hpre : ((a0 :: as) ++ ':' :: rest).takeWhile (fun c => c != ':') = a0 :: as :=
      takeWhile_append_stop (fun x hx => bne_iff_ne.mpr (hauth x hx).1) (by decide)
    have hskip : schemeSplit ((a0 :: as) ++ ':' :: rest) =
        ([], (a0 :: as) ++ ':' :: rest) := by
      simp only [schemeSplit]
      rw [hpre]
      rw [if_neg (by
        rintro ⟨-, -, hh, hsc⟩
        exact hfire ⟨hh, hsc⟩)]
    have htk2 : ((a0 :: as) ++ ':' :: rest).take 2 ≠ ['/', '/'] := by
      rw [hcons]
      intro hcon
      have : a0 = '/' := by
        have := congrArg (fun l => l.head?) hcon
        simpa using this
      exact absurd this (hauth a0 (by simp)).2.1
    have hta : ((a0 :: as) ++ ':' :: rest).takeWhile (fun c => c != '#') =
        (a0 :: as) ++ ':' :: rest :=
      takeWhile_all (by
        intro c hc
        rcases List.mem_append.mp hc with hc1 | hc2
        · exact bne_iff_ne.mpr (hauth c hc1).2.2.2.1
        rcases List.mem_cons.mp hc2 with rfl | hc3
        · decide
        · exact bne_iff_ne.mpr (hrest c hc3).2.1)
    have htb : ((a0 :: as) ++ ':' :: rest).takeWhile (fun c => c != '?') =
        (a0 :: as) ++ ':' :: rest :=
      takeWhile_all (by
        intro c hc
        rcases List.mem_append.mp hc with hc1 | hc2
        · exact bne_iff_ne.mpr (hauth c hc1).2.2.1
        rcases List.mem_cons.mp hc2 with rfl | hc3
        · decide
        · exact bne_iff_ne.mpr (hrest c hc3).2.2.1)
    simp only [urlparsePath]
    rw [hdrop, hfilter, hskip]
    simp only
    rw [if_neg htk2, if_neg htk2]
    rw [if_neg (by rintro (⟨hin, -⟩ | ⟨hin, -⟩) <;> simp at hin)]
    rw [hta, htb]
    rw [if_neg (by
      rintro ⟨-, hm⟩
      rcases List.mem_append.mp hm with hm1 | hm2
      · exact absurd rfl (hauth _ hm1).2.2.2.2.1
      rcases List.mem_cons.mp hm2 with he | hm3
      · exact absurd he.symm (by decide)
      · exact absurd rfl (hrest _ hm3).2.2.2.1)]

/-! Helper lemmas: character conditions of the rendered inputs, and the
behaviour of get_project_name_and_group on each dialect family. -/

theorem groupChar_ne {c : Char} (h : groupRestChar c = true) :
    c ≠ ':' ∧ c ≠ '#' ∧ c ≠ '?' ∧ c ≠ ';' ∧ c ≠ '\t' ∧ c ≠ '\r' ∧ c ≠ '\n' :=
  ⟨ne_of_pred h (by decide), ne_of_pred h (by decide), ne_of_pred h (by decide),
   ne_of_pred h (by decide), ne_of_pred h (by decide), ne_of_pred h (by decide),
   ne_of_pred h (by decide)⟩

theorem projChar_ne {c : Char} (h : (c.isAlphanum || isSepChar c) = true) :
    c ≠ ':' ∧ c ≠ '#' ∧ c ≠ '?' ∧ c ≠ ';' ∧ c ≠ '\t' ∧ c ≠ '\r' ∧ c ≠ '\n' := by
  refine ⟨?_, ?_, ?_, ?_, ?_, ?_, ?_⟩ <;> (rintro rfl; revert h; decide)

theorem restChars {dir g p : Str}
    (hdir : ∀ c ∈ dir, 32 < c.toNat ∧ c ≠ ':' ∧ c ≠ '?' ∧ c ≠ '#' ∧ c ≠ ';')
    (hg : validate_group_name g = true) (hp : validate_project_name p = true) :
    ∀ c ∈ dir ++ (g ++ '/' :: (p ++ ['.', 'g', 'i', 't'])),
      c ≠ ':' ∧ c ≠ '#' ∧ c ≠ '?' ∧ c ≠ ';' ∧ c ≠ '\t' ∧ c ≠ '\r' ∧ c ≠ '\n' := by
  intro c hc
  rcases List.mem_append.mp hc with hc1 | hc2
  · obtain ⟨h32, hcol, hq, hh, hsemi⟩ := hdir c hc1
    have h3 := gt32_ne h32
    exact ⟨hcol, hh, hq, hsemi, h3.1, h3.2.1, h3.2.2.1⟩
  rcases List.mem_append.mp hc2 with hc3 | hc4
  · exact groupChar_ne (vgn_chars hg c hc3)
  rcases List.mem_cons.mp hc4 with rfl | hc5
  · exact ⟨by decide, by decide, by decide, by decide, by decide, by decide, by decide⟩
  rcases List.mem_append.mp hc5 with hc6 | hc7
  · exact projChar_ne (vpn_chars hp c hc6)
  · fin_cases hc7 <;>
      exact ⟨by decide, by decide, by decide, by decide, by decide, by decide, by decide⟩

theorem restCharsNG {lead p : Str} (hlead : lead = [] ∨ lead = ['/'])
    (hp : validate_project_name p = true) :
    ∀ c ∈ lead ++ (p ++ ['.', 'g', 'i', 't']),
      c ≠ ':' ∧ c ≠ '#' ∧ c ≠ '?' ∧ c ≠ ';' ∧ c ≠ '\t' ∧ c ≠ '\r' ∧ c ≠ '\n' := by
  intro c hc
  rcases List.mem_append.mp hc with hc1 | hc2
  · rcases hlead with rfl | rfl
    · simp at hc1
    · rw [show c = '/' by simpa using hc1]
      exact ⟨by decide, by decide, by decide, by decide, by decide, by decide, by decide⟩
  rcases List.mem_append.mp hc2 with hc3 | hc4
  · exact projChar_ne (vpn_chars hp c hc3)
  · fin_cases hc4 <;>
      exact ⟨by decide, by decide, by decide, by decide, by decide, by decide, by decide⟩

theorem take2_of_head {u : Str} (h : ∃ c0 cs, u = c0 :: cs ∧ c0 ≠ '/') :
    u.take 2 ≠ ['/', '/'] := by
  obtain ⟨c0, cs, rfl, hc0⟩ := h
  match cs with
  | [] => simp
  | c1 :: t =>
      intro hcon
      simp at hcon
      exact hc0 hcon.1

theorem rest_head {dir g p : Str} (hdir : ∀ c ∈ dir, 32 < c.toNat)
    (hg : validate_group_name g = true) :
    ∃ c0 cs, dir ++ (g ++ '/' :: (p ++ ['.', 'g', 'i', 't'])) = c0 :: cs ∧ 32 < c0.toNat := by
  obtain ⟨g0, grest, hg0, hw, -⟩ := vgn_shape hg
  match dir with
  | [] =>
      refine ⟨g0, grest ++ '/' :: (p ++ ['.', 'g', 'i', 't']), ?_, wordChar_gt32 hw⟩
      rw [hg0]
      simp
  | d0 :: dt =>
      exact ⟨d0, dt ++ (g ++ '/' :: (p ++ ['.', 'g', 'i', 't'])), by simp,
        hdir d0 (by simp)⟩

theorem take2_group {dir g p : Str} (h2 : dir.take 2 ≠ ['/', '/'])
    (hg : validate_group_name g = true) :
    (dir ++ (g ++ '/' :: (p ++ ['.', 'g', 'i', 't']))).take 2 ≠ ['/', '/'] := by
  obtain ⟨g0, grest, hg0, hw, -⟩ := vgn_shape hg
  apply take2_append_ne h2
  refine ⟨g0, grest ++ '/' :: (p ++ ['.', 'g', 'i', 't']), ?_, ?_⟩
  · rw [hg0]; simp
  · exact ne_of_pred hw (by decide)

theorem pre_slash {dir : Str} (h : dir = [] ∨ ∃ t, dir = t ++ ['/']) :
    ('/' :: dir : Str) = [] ∨ ∃ t, ('/' :: dir : Str) = t ++ ['/'] := by
  rcases h with rfl | ⟨t, rfl⟩
  · exact Or.inr ⟨[], rfl⟩
  · exact Or.inr ⟨'/' :: t, by simp⟩

theorem get_scheme_group {sch auth dir g p : Str}
    (hs : sch ≠ []) (hsc : sch.all schemeChar = true) (hsh : headAlphaAscii sch = true)
    (hna : ∀ c ∈ auth, c ≠ '/' ∧ c ≠ '?' ∧ c ≠ '#' ∧ c ≠ '[' ∧ c ≠ ']' ∧
      c ≠ '\t' ∧ c ≠ '\r' ∧ c ≠ '\n')
    (hdir : DirOK dir) (hg : validate_group_name g = true)
    (hp : validate_project_name p = true) (hslash : '/' ∉ p)
    (hgit : endsGitB p = false) :
    get_project_name_and_group (sch ++ ':' :: '/' :: '/' ::
      (auth ++ '/' :: (dir ++ (g ++ '/' :: (p ++ ['.', 'g', 'i', 't']))))) =
      .ok (some p, some g) := by
  have hdc := hdir.2.2
  have hrc := restChars (fun c hc => hdc c hc) hg hp
  have halc2 : afterLastColon ('/' :: (dir ++ (g ++ '/' :: (p ++ ['.', 'g', 'i', 't'])))) =
      ('/' :: dir) ++ (g ++ '/' :: (p ++ ['.', 'g', 'i', 't'])) := by
    rw [alc_no_colon (fun hcm => by
      rcases List.mem_cons.mp hcm with he | hm
      · exact absurd he (by decide)
      · exact absurd rfl (hrc ':' hm).1)]
    simp
  unfold get_project_name_and_group
  rw [urlparse_scheme hs hsc hsh hna (fun c hc =>
    ⟨(hrc c hc).2.1, (hrc c hc).2.2.1, (hrc c hc).2.2.2.1,
     (hrc c hc).2.2.2.2.1, (hrc c hc).2.2.2.2.2.1, (hrc c hc).2.2.2.2.2.2⟩)]
  exact congrArg Except.ok (fromPath_group halc2 (pre_slash hdir.1) hg hp hslash hgit)

theorem get_scp_group {auth dir g p : Str}
    (ha : ∃ a0 as, auth = a0 :: as ∧ 32 < a0.toNat)
    (hauth : ∀ c ∈ auth, c ≠ ':' ∧ c ≠ '/' ∧ c ≠ '?' ∧ c ≠ '#' ∧ c ≠ ';' ∧
      c ≠ '\t' ∧ c ≠ '\r' ∧ c ≠ '\n')
    (hdir : DirOK dir) (hg : validate_group_name g = true)
    (hp : validate_project_name p = true) (hslash : '/' ∉ p)
    (hgit : endsGitB p = false) :
    get_project_name_and_group (auth ++ ':' ::
      (dir ++ (g ++ '/' :: (p ++ ['.', 'g', 'i', 't'])))) = .ok (some p, some g) := by
  have hrc := restChars (fun c hc => hdir.2.2 c hc) hg hp
  obtain ⟨path, hup, halc⟩ := urlparse_scp ha hauth hrc (take2_group hdir.2.1 hg)
  unfold get_project_name_and_group
  rw [hup]
  exact congrArg Except.ok (fromPath_group (by rw [halc]) hdir.1 hg hp hslash hgit)

theorem get_bare_group {dir g p : Str}
    (hdir : DirOK dir) (hg : validate_group_name g = true)
    (hp : validate_project_name p = true) (hslash : '/' ∉ p)
    (hgit : endsGitB p = false) :
    get_project_name_and_group (dir ++ (g ++ '/' :: (p ++ ['.', 'g', 'i', 't']))) =
      .ok (some p, some g) := by
  have hrc := restChars (fun c hc => hdir.2.2 c hc) hg hp
  unfold get_project_name_and_group
  rw [urlparse_noscheme (rest_head (fun c hc => (hdir.2.2 c hc).1) hg)
    (fun hc => absurd rfl (hrc ':' hc).1) (take2_group hdir.2.1 hg)
    (fun c hc => ⟨(hrc c hc).2.1, (hrc c hc).2.2.1, (hrc c hc).2.2.2.1,
      (hrc c hc).2.2.2.2.1, (hrc c hc).2.2.2.2.2.1, (hrc c hc).2.2.2.2.2.2⟩)]
  exact congrArg Except.ok (fromPath_group
    (alc_no_colon (fun hc => absurd rfl (hrc ':' hc).1)) hdir.1 hg hp hslash hgit)

theorem get_scheme_nogroup {sch auth p : Str}
    (hs : sch ≠ []) (hsc : sch.all schemeChar = true) (hsh : headAlphaAscii sch = true)
    (hna : ∀ c ∈ auth, c ≠ '/' ∧ c ≠ '?' ∧ c ≠ '#' ∧ c ≠ '[' ∧ c ≠ ']' ∧
      c ≠ '\t' ∧ c ≠ '\r' ∧ c ≠ '\n')
    (hp : validate_project_name p = true) (hslash : '/' ∉ p)
    (hgit : endsGitB p = false) :
    get_project_name_and_group (sch ++ ':' :: '/' :: '/' ::
      (auth ++ '/' :: (p ++ ['.', 'g', 'i', 't']))) = .ok (some p, none) := by
  have hrc := restCharsNG (Or.inl rfl) hp
  have hrc2 : ∀ c ∈ p ++ ['.', 'g', 'i', 't'],
      c ≠ ':' ∧ c ≠ '#' ∧ c ≠ '?' ∧ c ≠ ';' ∧ c ≠ '\t' ∧ c ≠ '\r' ∧ c ≠ '\n' :=
    fun c hc => hrc c (by simpa using hc)
  have halc2 : afterLastColon ('/' :: (p ++ ['.', 'g', 'i', 't'])) =
      ['/'] ++ (p ++ ['.', 'g', 'i', 't']) := by
    rw [alc_no_colon (fun hcm => by
      rcases List.mem_cons.mp hcm with he | hm
      · exact absurd he (by decide)
      · exact absurd rfl (hrc2 ':' hm).1)]
    simp
  unfold get_project_name_and_group
  rw [urlparse_scheme hs hsc hsh hna (fun c hc =>
    ⟨(hrc2 c hc).2.1, (hrc2 c hc).2.2.1, (hrc2 c hc).2.2.2.1,
     (hrc2 c hc).2.2.2.2.1, (hrc2 c hc).2.2.2.2.2.1, (hrc2 c hc).2.2.2.2.2.2⟩)]
  exact congrArg Except.ok (fromPath_nogroup halc2 (Or.inr rfl) hp hslash hgit)

theorem get_scp_nogroup {auth lead p : Str}
    (ha : ∃ a0 as, auth = a0 :: as ∧ 32 < a0.toNat)
    (hauth : ∀ c ∈ auth, c ≠ ':' ∧ c ≠ '/' ∧ c ≠ '?' ∧ c ≠ '#' ∧ c ≠ ';' ∧
      c ≠ '\t' ∧ c ≠ '\r' ∧ c ≠ '\n')
    (hlead : lead = [] ∨ lead = ['/'])
    (hp : validate_project_name p = true) (hslash : '/' ∉ p)
    (hgit : endsGitB p = false) :
    get_project_name_and_group (auth ++ ':' :: (lead ++ (p ++ ['.', 'g', 'i', 't']))) =
      .ok (some p, none) := by
  have hrc := restCharsNG hlead hp
  obtain ⟨p0, prest, hp0, hpa, -⟩ := vpn_shape hp
  have htk2 : (lead ++ (p ++ ['.', 'g', 'i', 't'])).take 2 ≠ ['/', '/'] := by
    rcases hlead with rfl | rfl
    · apply take2_of_head
      exact ⟨p0, prest ++ ['.', 'g', 'i', 't'], by rw [hp0]; simp,
        ne_of_pred hpa (by decide)⟩
    · rw [show (['/'] ++ (p ++ ['.', 'g', 'i', 't']) : Str)
        = '/' :: (p ++ ['.', 'g', 'i', 't']) by simp]
      intro hcon
      rw [hp0] at hcon
      simp at hcon
      exact absurd hcon (ne_of_pred hpa (by decide))
  obtain ⟨path, hup, halc⟩ := urlparse_scp ha hauth hrc htk2
  unfold get_project_name_and_group
  rw [hup]
  exact congrArg Except.ok (fromPath_nogroup (by rw [halc]) hlead hp hslash hgit)

theorem get_bare_nogroup {lead p : Str}
    (hlead : lead = [] ∨ lead = ['/'])
    (hp : validate_project_name p = true) (hslash : '/' ∉ p)
    (hgit : endsGitB p = false) :
    get_project_name_and_group (lead ++ (p ++ ['.', 'g', 'i', 't'])) =
      .ok (some p, none) := by
  have hrc := restCharsNG hlead hp
  obtain ⟨p0, prest, hp0, hpa, -⟩ := vpn_shape hp
  have hhead : ∃ c0 cs, lead ++ (p ++ ['.', 'g', 'i', 't']) = c0 :: cs ∧ 32 < c0.toNat := by
    rcases hlead with rfl | rfl
    · exact ⟨p0, prest ++ ['.', 'g', 'i', 't'], by rw [hp0]; simp,
        alnum_gt32 hpa⟩
    · exact ⟨'/', p ++ ['.', 'g', 'i', 't'], by simp, by decide⟩
  have htk2 : (lead ++ (p ++ ['.', 'g', 'i', 't'])).take 2 ≠ ['/', '/'] := by
    rcases hlead with rfl | rfl
    · apply take2_of_head
      exact ⟨p0, prest ++ ['.', 'g', 'i', 't'], by rw [hp0]; simp,
        ne_of_pred hpa (by decide)⟩
    · rw [show (['/'] ++ (p ++ ['.', 'g', 'i', 't']) : Str)
        = '/' :: (p ++ ['.', 'g', 'i', 't']) by simp]
      intro hcon
      rw [hp0] at hcon
      simp at hcon
      exact absurd hcon (ne_of_pred hpa (by decide))
  unfold get_project_name_and_group
  rw [urlparse_noscheme hhead (fun hc => absurd rfl (hrc ':' hc).1) htk2
    (fun c hc => ⟨(hrc c hc).2.1, (hrc c hc).2.2.1, (hrc c hc).2.2.2.1,
      (hrc c hc).2.2.2.2.1, (hrc c hc).2.2.2.2.2.1, (hrc c hc).2.2.2.2.2.2⟩)]
  exact congrArg Except.ok (fromPath_nogroup
    (alc_no_colon (fun hc => absurd rfl (hrc ':' hc).1)) hlead hp hslash hgit)

/-! Claim theorems. -/

/-- Claim C2 (code bug): the spec says get_project_name_and_group never
raises and returns (absent, absent) on any unparseable input such as
"http://[", but on that input the code catches the ValueError from
urlparse, sets project and group to None, and then
validate_project_name(None) calls re.fullmatch on None, which raises
TypeError.  This theorem evaluates the model at the failing input. -/
theorem c2_raises_on_invalid_ipv6 :
    get_project_name_and_group "http://[".data = .error PyExc.typeError := by
  decide

/-- Claim C3: the three concrete scenarios of the spec. -/
theorem c3_concrete_scenarios :
    get_project_name_and_group "git@github.com:0xKD/elixir.git".data =
      .ok (some "elixir".data, some "0xKD".data) ∧
    get_project_name_and_group "ssh://user@host.xz/~user/path/to/repo.git".data =
      .ok (some "repo".data, some "to".data) ∧
    get_project_name_and_group "https://host.xz/repo.git".data =
      .ok (some "repo".data, none) := by
  refine ⟨by decide, by decide, by decide⟩

/-- Claim C7: the boundary inputs empty string, "/", ".git" and "~/" all
yield (absent, absent). -/
theorem c7_boundary_inputs :
    get_project_name_and_group "".data = .ok (none, none) ∧
    get_project_name_and_group "/".data = .ok (none, none) ∧
    get_project_name_and_group ".git".data = .ok (none, none) ∧
    get_project_name_and_group "~/".data = .ok (none, none) := by
  refine ⟨by decide, by decide, by decide, by decide⟩

/-- Claim C1 is refuted as stated: for the input
"https://host.xz/group/legit.git", whose path ends in group/legit.git, the
claim demands the pair (legit, group), but the code returns ("l", "group"):
clean_name is applied a second time to the basename "legit" and the regex
(.git)?/?$ matches the trailing "egit" (the "." matches any character). -/
theorem c1_counterexample :
    get_project_name_and_group "https://host.xz/group/legit.git".data =
      .ok (some "l".data, some "group".data) ∧
    get_project_name_and_group "https://host.xz/group/legit.git".data ≠
      .ok (some "legit".data, some "group".data) := by
  refine ⟨by decide, by decide⟩

/-- The post-parse pipeline maps a bare valid project name (no ".git"
suffix, no slash, not ending in a character followed by "git") to itself. -/
theorem fromPath_plain {p : Str} (hp : validate_project_name p = true)
    (hslash : '/' ∉ p) (hgit : endsGitB p = false) :
    fromPath p = (some p, none) := by
  obtain ⟨p0, prest, hp0, hpa, -⟩ := vpn_shape hp
  have hpchars : ∀ c ∈ p, c ≠ '/' := fun c hcp he => hslash (by rw [← he]; exact hcp)
  have hpne : p ≠ [] := by rw [hp0]; simp
  have hpstrip : pyStrip p ≠ [] :=
    pyStrip_ne_nil (show p0 ∈ p by rw [hp0]; simp) (gt32_ne (alnum_gt32 hpa)).2.2.2
  obtain ⟨tp, cl, hpdec, hcl⟩ := vpn_last hp
  have hpclean : clean_name p = p := by
    unfold clean_name
    rw [alc_no_colon (fun hc => absurd (vpn_chars hp ':' hc) (by decide))]
    apply subGit_eq_self hgit
    · rw [hpdec]
      simpa using ne_of_pred hcl (by decide)
    · rw [hpdec]
      simpa using ne_of_pred hcl (by decide)
  simp only [fromPath]
  rw [hpclean, ospathSplit_nosep p hpchars]
  simp only
  rw [if_neg (show ¬(([] : Str) ≠ [] ∧ pyStrip ([] : Str) ≠ []) by simp),
    if_pos (And.intro hpne hpstrip), hpclean, if_pos hp,
    if_neg (show ¬(validate_group_name ([] : Str) = true) by decide)]

/-- Claim C4 is refuted as stated: "legit" is accepted by
validate_project_name, but used as the sole path segment it comes back as
"l", not unchanged: the end-anchored (.git)?/?$ of clean_name matches the
trailing "egit" because "." matches any character. -/
theorem c4_counterexample :
    validate_project_name "legit".data = true ∧
    get_project_name_and_group "legit".data = .ok (some "l".data, none) ∧
    get_project_name_and_group "legit".data ≠ .ok (some "legit".data, none) := by
  refine ⟨by decide, by decide, by decide⟩

/-- Claim C4 (amended): every string accepted by validate_project_name
that is a single path segment (contains no "/") and does not end in a
character followed by "git" is returned unchanged as the project field
(with no group) when used as the whole input. -/
theorem c4_amended (p : Str) (hp : validate_project_name p = true)
    (hslash : '/' ∉ p) (hgit : endsGitB p = false) :
    get_project_name_and_group p = .ok (some p, none) := by
  obtain ⟨p0, prest, hp0, hpa, -⟩ := vpn_shape hp
  unfold get_project_name_and_group
  rw [urlparse_noscheme ⟨p0, prest, hp0, alnum_gt32 hpa⟩
    (fun hc => absurd (vpn_chars hp ':' hc) (by decide))
    (take2_of_head ⟨p0, prest, hp0, ne_of_pred hpa (by decide)⟩)
    (fun c hc => by
      have pcn := projChar_ne (vpn_chars hp c hc)
      exact ⟨pcn.2.1, pcn.2.2.1, pcn.2.2.2.1, pcn.2.2.2.2.1,
        pcn.2.2.2.2.2.1, pcn.2.2.2.2.2.2⟩)]
  exact congrArg Except.ok (fromPath_plain hp hslash hgit)

/-- Witness for c4_amended at the concrete project name "sample". -/
theorem c4_amended_witness :
    validate_project_name "sample".data = true ∧
    get_project_name_and_group "sample".data = .ok (some "sample".data, none) :=
  ⟨by decide, c4_amended "sample".data (by decide) (by decide) (by decide)⟩

/-- Claim C5 is refuted as stated: for the scheme-form URL
"https://host.xz/a:b/repo.git" the path component is "/a:b/repo.git", and
processing it verbatim (fromPathVerbatim, the wording of the spec) would
reject the group candidate "a:b" and yield (repo, absent); the code instead
splits the path at its last colon, so the group becomes "b", a fragment of
a path segment. -/
theorem c5_counterexample :
    get_project_name_and_group "https://host.xz/a:b/repo.git".data =
      .ok (some "repo".data, some "b".data) ∧
    fromPathVerbatim "/a:b/repo.git".data = (some "repo".data, none) ∧
    get_project_name_and_group "https://host.xz/a:b/repo.git".data ≠
      .ok (fromPathVerbatim "/a:b/repo.git".data) := by
  refine ⟨by decide, by decide, by decide⟩

/-- Claim C5 (amended): for every scheme-form URL whose authority is made
of bracket-free ASCII characters (so that the unmodelled netloc
validations of urlsplit cannot raise), the result is computed from the
path component alone, so credentials, host and port in the authority
section (which may freely contain ":" and "@") never appear in the
extracted names; the path however is not taken verbatim: the whole
post-parse pipeline (including the colon split of clean_name) is applied
to it. -/
theorem c5_amended (sch netloc rest : Str)
    (hs : sch ≠ []) (hsc : sch.all schemeChar = true) (hsh : headAlphaAscii sch = true)
    (hn : ∀ c ∈ netloc, c.toNat < 128 ∧ (c ≠ '/' ∧ c ≠ '?' ∧ c ≠ '#' ∧ c ≠ '[' ∧
      c ≠ ']' ∧ c ≠ '\t' ∧ c ≠ '\r' ∧ c ≠ '\n'))
    (hr : ∀ c ∈ rest, c ≠ '#' ∧ c ≠ '?' ∧ c ≠ ';' ∧ c ≠ '\t' ∧ c ≠ '\r' ∧ c ≠ '\n') :
    get_project_name_and_group (sch ++ ':' :: '/' :: '/' :: (netloc ++ '/' :: rest)) =
      .ok (fromPath ('/' :: rest)) := by
  unfold get_project_name_and_group
  rw [urlparse_scheme hs hsc hsh (fun c hc => (hn c hc).2) hr]

/-- Witness for c5_amended: an authority carrying credentials and a port. -/
theorem c5_amended_witness :
    get_project_name_and_group ("https".data ++ ':' :: '/' :: '/' ::
      ("user:pass@host.xz:8080".data ++ '/' :: "path/to/repo.git".data)) =
      .ok (fromPath ('/' :: "path/to/repo.git".data)) :=
  c5_amended _ _ _ (by decide) (by decide) (by decide) (by decide) (by decide)

/-- Claim C6 is refuted as stated: the regex (.git)?/?$ strips at most one
trailing slash, so "file:///path/to/repo//" keeps one slash after
clean_name, os.path.split then returns an empty basename, and the result
is (absent, "repo") instead of the ("repo", "to") obtained without the
double slash. -/
theorem c6_counterexample :
    get_project_name_and_group "file:///path/to/repo//".data =
      .ok (none, some "repo".data) ∧
    get_project_name_and_group "file:///path/to/repo".data =
      .ok (some "repo".data, some "to".data) ∧
    get_project_name_and_group "file:///path/to/repo//".data ≠
      get_project_name_and_group "file:///path/to/repo".data := by
  refine ⟨by decide, by decide, by decide⟩

/-- Claim C6 (amended): appending a SINGLE trailing slash does not change
the inferred result: for every colon-free path whose last character is
neither "/" nor a newline and which does not end in a character followed
by "git", the pipeline gives the same answer with and without one
appended slash (and concretely the file:// URL of the spec with one
trailing slash agrees with the slashless one). -/
theorem c6_amended :
    (∀ (path : Str) (c : Char), ':' ∉ path → path.getLast? = some c →
      c ≠ '/' → c ≠ '\n' → endsGitB path = false →
      fromPath (path ++ ['/']) = fromPath path) ∧
    get_project_name_and_group "file:///path/to/repo/".data =
      get_project_name_and_group "file:///path/to/repo".data := by
  constructor
  · intro path c hcol hlast hc1 hc2 hgit
    have hne : path ≠ [] := by
      intro h
      rw [h] at hlast
      exact Option.noConfusion hlast
    have hdec : path.dropLast ++ [c] = path := by
      have h1 := List.dropLast_append_getLast hne
      have h3 := List.getLast?_eq_getLast path hne
      rw [hlast] at h3
      rw [(Option.some.inj h3).symm] at h1
      exact h1
    have hrevhead : path.reverse.head? = some c := by rw [← hdec]; simp
    have e2 : clean_name path = path := by
      unfold clean_name
      rw [alc_no_colon hcol]
      exact subGit_eq_self hgit
        (by rw [hrevhead]; exact fun hh => hc1 (Option.some.inj hh))
        (by rw [hrevhead]; exact fun hh => hc2 (Option.some.inj hh))
    have e1 : clean_name (path ++ ['/']) = path := by
      unfold clean_name
      rw [alc_no_colon (by
        intro hm
        rcases List.mem_append.mp hm with h | h
        · exact hcol h
        · simp at h)]
      exact subGit_append_slash _ hgit
    simp only [fromPath]
    rw [e1, e2]
  · decide

/-- Witness for the universal part of c6_amended at the path "/x/y". -/
theorem c6_amended_witness :
    fromPath ("/x/y".data ++ ['/']) = fromPath "/x/y".data :=
  c6_amended.1 "/x/y".data 'y' (by decide) (by decide) (by decide) (by decide) (by decide)

/-- Inversion for a successful run of get_project_name_and_group. -/
theorem get_ok_inv {s : Str} {pr : Option Str × Option Str}
    (h : get_project_name_and_group s = .ok pr) :
    ∃ path, urlparsePath s = .ok path ∧ fromPath path = pr := by
  unfold get_project_name_and_group at h
  cases hup : urlparsePath s with
  | error e =>
      rw [hup] at h
      simp at h
  | ok path =>
      rw [hup] at h
      simp at h
      exact ⟨path, rfl, h⟩

/-- A conditional option equal to some value forces its condition. -/
theorem opt_if_eq_some {c : Prop} [Decidable c] {a x : Str}
    (h : (if c then some a else none) = some x) : c ∧ a = x := by
  by_cases hc : c
  · rw [if_pos hc] at h
    exact ⟨hc, Option.some.inj h⟩
  · rw [if_neg hc] at h
    exact absurd h (by simp)

/-- A present project field of fromPath satisfies the project grammar. -/
theorem fromPath_fst_valid {path x : Str} (h : (fromPath path).1 = some x) :
    validate_project_name x = true := by
  simp only [fromPath] at h
  obtain ⟨hv, ha⟩ := opt_if_eq_some h
  rw [← ha]
  exact hv

/-- A present group field of fromPath satisfies the group grammar. -/
theorem fromPath_snd_valid {path y : Str} (h : (fromPath path).2 = some y) :
    validate_group_name y = true := by
  simp only [fromPath] at h
  obtain ⟨hv, ha⟩ := opt_if_eq_some h
  rw [← ha]
  exact hv

/-- The project field of fromPath is never the empty string. -/
theorem fromPath_fst_ne_nil {path : Str} : (fromPath path).1 ≠ some [] :=
  fun h => absurd (fromPath_fst_valid h) (by decide)

/-- Claim C8: for every input on which the function returns, a present
project satisfies the project grammar and a present group satisfies the
group grammar; and the two validations are independent, shown by a
malformed group with a well-formed sibling project and vice versa. -/
theorem c8_validation_invariant :
    (∀ (s : Str) (po go : Option Str),
        get_project_name_and_group s = .ok (po, go) →
        (∀ x, po = some x → validate_project_name x = true) ∧
        (∀ y, go = some y → validate_group_name y = true)) ∧
    get_project_name_and_group "/a+b/repo.git".data = .ok (some "repo".data, none) ∧
    get_project_name_and_group "/group/re(po.git".data = .ok (none, some "group".data) := by
  refine ⟨?_, by decide, by decide⟩
  intro s po go h
  obtain ⟨path, -, hfp⟩ := get_ok_inv h
  constructor
  · intro x hx
    exact fromPath_fst_valid (by rw [hfp, hx])
  · intro y hy
    exact fromPath_snd_valid (by rw [hfp, hy])

/-- Witness for the universal part of c8_validation_invariant at the
input "/a+b/repo.git". -/
theorem c8_validation_invariant_witness :
    validate_project_name "repo".data = true :=
  (c8_validation_invariant.1 "/a+b/repo.git".data (some "repo".data) none
    (by decide)).1 "repo".data rfl

/-- Python "or" never yields the empty string when the inferred value
cannot be the empty string. -/
theorem pyOrStr_ne_nil {eP ip : Option Str} (hip : ip ≠ some []) :
    pyOrStr eP ip ≠ some [] := by
  cases eP with
  | none => exact hip
  | some e =>
      show (if e ≠ [] then some e else ip) ≠ some []
      by_cases he : e ≠ []
      · rw [if_pos he]
        intro hc
        injection hc with hc2
        exact he hc2
      · rw [if_neg he]
        exact hip

/-- Claim C9 (code bug): whenever inference returns, the resolved project
(resp. group) is the explicit CLI value when that value is non-empty and
the inferred value otherwise, and the run exits with the error code -1
exactly when the resolved project is absent.  But the claim quantifies
over every source string, and for source "http://[" the inference
engine itself raises TypeError (see claim C2), which main does not catch:
the run crashes even when an explicit project name was passed, so the
"error exit exactly when the resolved project is absent" equivalence
fails there.  The last conjunct evaluates the model at that failing
input. -/
theorem c9_target_resolution :
    (∀ (src : Str) (eP eG ip ig : Option Str),
        get_project_name_and_group src = .ok (ip, ig) →
        (∀ s, eP = some s → s ≠ [] → pyOrStr eP ip = some s) ∧
        (pyTruthyOpt eP = false → pyOrStr eP ip = ip) ∧
        (mainResolve src eP eG = .ok (.error (-1)) ↔ pyOrStr eP ip = none) ∧
        (pyOrStr eP ip ≠ none →
          mainResolve src eP eG = .ok (.ok (pyOrStr eP ip, pyOrStr eG ig)))) ∧
    mainResolve "http://[".data (some "proj".data) none = .error PyExc.typeError := by
  refine ⟨?_, by decide⟩
  intro src eP eG ip ig hget
  have hipne : ip ≠ some [] := by
    obtain ⟨path, -, hfp⟩ := get_ok_inv hget
    intro hc
    exact @fromPath_fst_ne_nil path (by rw [hfp, hc])
  have hm : mainResolve src eP eG =
      (if pyTruthyOpt (pyOrStr eP ip) = false then .ok (.error (-1))
       else .ok (.ok (pyOrStr eP ip, pyOrStr eG ig))) := by
    unfold mainResolve
    rw [hget]
  refine ⟨?_, ?_, ?_, ?_⟩
  · intro s hs hsne
    rw [hs]
    show (if s ≠ [] then some s else ip) = some s
    rw [if_pos hsne]
  · intro hf
    cases eP with
    | none => rfl
    | some e =>
        simp only [pyTruthyOpt] at hf
        show (if e ≠ [] then some e else ip) = ip
        rw [if_neg (by simpa using hf)]
  · constructor
    · intro he
      rw [hm] at he
      by_cases htr : pyTruthyOpt (pyOrStr eP ip) = false
      · cases hor : pyOrStr eP ip with
        | none => rfl
        | some s =>
            rw [hor] at htr
            simp only [pyTruthyOpt] at htr
            have hs : s = [] := by simpa using htr
            exact absurd (by rw [hor, hs]) (pyOrStr_ne_nil hipne)
      · rw [if_neg htr] at he
        simp at he
    · intro he
      rw [hm, he]
      rfl
  · intro hne
    have htr : pyTruthyOpt (pyOrStr eP ip) = true := by
      cases hor : pyOrStr eP ip with
      | none => exact absurd hor hne
      | some s =>
          simp only [pyTruthyOpt]
          have hs2 : s ≠ [] := by
            intro hs
            exact pyOrStr_ne_nil hipne (by rw [hor, hs])
          simpa using hs2
    rw [hm, if_neg (by rw [htr]; simp)]

/-- Witness for the universal part of c9_target_resolution: no explicit
values, source "/path/to/repo.git". -/
theorem c9_target_resolution_witness :
    mainResolve "/path/to/repo.git".data none none =
      .ok (.ok (pyOrStr none (some "repo".data), pyOrStr none (some "to".data))) :=
  ((c9_target_resolution.1 "/path/to/repo.git".data none none
    (some "repo".data) (some "to".data) (by decide)).2.2.2 (by decide))

/-- Claim C10: the trailing strip of clean_name removes any character
followed by "git" at the end of the string (not only a literal ".git"),
and since it runs once on the whole path and once on the split-off
basename, "/path/to/legit" infers the project "l" and a path ending in
"repo.git.git" infers the project "repo". -/
theorem c10_strip_behavior :
    (∀ (xs : Str) (c : Char), c ≠ '\n' → subGitSlash (xs ++ [c, 'g', 'i', 't']) = xs) ∧
    get_project_name_and_group "/path/to/legit".data =
      .ok (some "l".data, some "to".data) ∧
    get_project_name_and_group "/path/to/repo.git.git".data =
      .ok (some "repo".data, some "to".data) :=
  ⟨fun xs c hc => subGit_append_git xs c hc, by decide, by decide⟩

/-- Witness for the universal part of c10_strip_behavior. -/
theorem c10_strip_behavior_witness :
    ('.' ≠ '\n') ∧ subGitSlash ("x".data ++ ['.', 'g', 'i', 't']) = "x".data :=
  ⟨by decide, c10_strip_behavior.1 "x".data '.' (by decide)⟩

/-- Claim C1 (amended): for every supported dialect (scp-style ssh,
ssh://, git://, rsync://, http://, https://, file://, bare path) and
every input whose path ends in dir/group/project.git, where group and
project satisfy their validation grammars (modelled here on their ASCII
fragment), project is a single segment and does not itself end in a
character followed by "git" (the condition the counterexample forces,
since clean_name is applied a second time to the basename), and — for
the scheme dialects — the authority consists of bracket-free ASCII
characters (so that the unmodelled netloc validations of urlsplit cannot
raise; see AuthOK), the function returns exactly (project, group); and
with no intermediate directory segment it returns (project, absent). -/
theorem c1_amended :
    (∀ (d : Dialect) (auth dir g p : Str),
        NamesOK g p → DirOK dir → AuthOK d auth →
        get_project_name_and_group (renderGroup d auth dir g p) =
          .ok (some p, some g)) ∧
    (∀ (d : Dialect) (auth lead p : Str),
        (lead = [] ∨ lead = ['/']) → validate_project_name p = true →
        '/' ∉ p → endsGitB p = false → AuthOK d auth →
        get_project_name_and_group (renderNoGroup d auth lead p) =
          .ok (some p, none)) := by
  constructor
  · intro d auth dir g p hnm hdir hauth
    obtain ⟨hg, hp, hslash, hgit⟩ := hnm
    cases d with
    | scp => exact get_scp_group hauth.1 hauth.2 hdir hg hp hslash hgit
    | bare => exact get_bare_group hdir hg hp hslash hgit
    | ssh =>
        exact @get_scheme_group "ssh".data auth dir g p
          (by decide) (by decide) (by decide) (fun c hc => (hauth c hc).2)
          hdir hg hp hslash hgit
    | git =>
        exact @get_scheme_group "git".data auth dir g p
          (by decide) (by decide) (by decide) (fun c hc => (hauth c hc).2)
          hdir hg hp hslash hgit
    | rsync =>
        exact @get_scheme_group "rsync".data auth dir g p
          (by decide) (by decide) (by decide) (fun c hc => (hauth c hc).2)
          hdir hg hp hslash hgit
    | http =>
        exact @get_scheme_group "http".data auth dir g p
          (by decide) (by decide) (by decide) (fun c hc => (hauth c hc).2)
          hdir hg hp hslash hgit
    | https =>
        exact @get_scheme_group "https".data auth dir g p
          (by decide) (by decide) (by decide) (fun c hc => (hauth c hc).2)
          hdir hg hp hslash hgit
    | file =>
        exact @get_scheme_group "file".data auth dir g p
          (by decide) (by decide) (by decide) (fun c hc => (hauth c hc).2)
          hdir hg hp hslash hgit
  · intro d auth lead p hlead hp hslash hgit hauth
    cases d with
    | scp => exact get_scp_nogroup hauth.1 hauth.2 hlead hp hslash hgit
    | bare => exact get_bare_nogroup hlead hp hslash hgit
    | ssh =>
        exact @get_scheme_nogroup "ssh".data auth p
          (by decide) (by decide) (by decide) (fun c hc => (hauth c hc).2)
          hp hslash hgit
    | git =>
        exact @get_scheme_nogroup "git".data auth p
          (by decide) (by decide) (by decide) (fun c hc => (hauth c hc).2)
          hp hslash hgit
    | rsync =>
        exact @get_scheme_nogroup "rsync".data auth p
          (by decide) (by decide) (by decide) (fun c hc => (hauth c hc).2)
          hp hslash hgit
    | http =>
        exact @get_scheme_nogroup "http".data auth p
          (by decide) (by decide) (by decide) (fun c hc => (hauth c hc).2)
          hp hslash hgit
    | https =>
        exact @get_scheme_nogroup "https".data auth p
          (by decide) (by decide) (by decide) (fun c hc => (hauth c hc).2)
          hp hslash hgit
    | file =>
        exact @get_scheme_nogroup "file".data auth p
          (by decide) (by decide) (by decide) (fun c hc => (hauth c hc).2)
          hp hslash hgit

/-- Witness for c1_amended: the scp-style source git@github.com:0xKD/elixir.git
and the scheme-form source ssh://user@host.xz/path/to/repo.git. -/
theorem c1_amended_witness :
    get_project_name_and_group
      (renderGroup .scp "git@github.com".data [] "0xKD".data "elixir".data) =
      .ok (some "elixir".data, some "0xKD".data) ∧
    get_project_name_and_group
      (renderGroup .ssh "user@host.xz".data "path/".data "to".data "repo".data) =
      .ok (some "repo".data, some "to".data) ∧
    get_project_name_and_group
      (renderNoGroup .https "host.xz".data [] "repo".data) =
      .ok (some "repo".data, none) :=
  ⟨c1_amended.1 .scp "git@github.com".data [] "0xKD".data "elixir".data
    ⟨by decide, by decide, by decide, by decide⟩
    ⟨Or.inl rfl, by decide, by decide⟩
    ⟨⟨'g', "it@github.com".data, by decide, by decide⟩, by decide⟩,
   c1_amended.1 .ssh "user@host.xz".data "path/".data "to".data "repo".data
    ⟨by decide, by decide, by decide, by decide⟩
    ⟨Or.inr ⟨"path".data, by decide⟩, by decide, by decide⟩
    (by decide),
   c1_amended.2 .https "host.xz".data [] "repo".data (Or.inl rfl)
    (by decide) (by decide) (by decide) (by decide)⟩

end GitBackups
